import Mathlib

/-!
Verification of the Leiden-to-EpiDoc converter applications.

Strings are modelled as `List Char`.  The regex searches of
`LeidenToEpiDocConverter._parse_response` (patterns such as
`<analysis>(.*?)</analysis>` compiled with `re.DOTALL | re.IGNORECASE`)
are modelled by explicit scanning functions: a `re.search` of such a
pattern succeeds exactly when the (case-insensitive) opening tag occurs
and the closing tag occurs somewhere after it; the match starts at the
leftmost occurrence of the opening tag, and the lazy group extends to
the first subsequent occurrence of the closing tag.
-/

namespace LeidenEpiDoc

/-- The literal tag name of `ANALYSIS_PATTERN` in `leiden-epidoc.py`. -/
def analysisName : List Char := "analysis".data

/-- The literal tag name of `NOTES_PATTERN` in `leiden-epidoc.py`. -/
def notesName : List Char := "notes".data

/-- The literal tag name of `TRANSLATION_PATTERN` in `leiden-epidoc.py`. -/
def translationName : List Char := "final_translation".data

/-- Opening tag literal of a pattern, e.g. `<analysis>`. -/
def openTagOf (name : List Char) : List Char := '<' :: (name ++ ['>'])

/-- Closing tag literal of a pattern, e.g. `</analysis>`. -/
def closeTagOf (name : List Char) : List Char := '<' :: '/' :: (name ++ ['>'])

/-- Case-insensitive literal matching at the head of a string: `pat` is a
lowercase pattern, and each input character is lowered before comparison.
This models matching a literal under `re.IGNORECASE`. -/
def ciStartsWith : List Char → List Char → Bool
  | [], _ => true
  | _ :: _, [] => false
  | p :: ps, c :: cs => (Char.toLower c = p) && ciStartsWith ps cs

/-- Index of the leftmost case-insensitive occurrence of the literal `pat`
in `s`, as found by a left-to-right regex scan. -/
def findIdx (pat : List Char) : List Char → Option Nat
  | [] => if ciStartsWith pat [] then some 0 else none
  | c :: rest =>
    if ciStartsWith pat (c :: rest) then some 0
    else (findIdx pat rest).map (· + 1)

/-- Model of `PATTERN.search(s).group(1)` for a pattern
`<name>(.*?)</name>` with `re.DOTALL | re.IGNORECASE`: the leftmost
occurrence of the opening tag, then the lazy group up to the first
subsequent occurrence of the closing tag. -/
def searchGroup (name s : List Char) : Option (List Char) :=
  match findIdx (openTagOf name) s with
  | none => none
  | some i =>
    match findIdx (closeTagOf name) (s.drop (i + (openTagOf name).length)) with
    | none => none
    | some j => some ((s.drop (i + (openTagOf name).length)).take j)

/-- Python `str` whitespace (the characters removed by `str.strip()`). -/
def pySpace (c : Char) : Bool :=
  let n := c.toNat
  (9 ≤ n && n ≤ 13) || (28 ≤ n && n ≤ 31) || n == 32 || n == 0x85 ||
  n == 0xA0 || n == 0x1680 || (0x2000 ≤ n && n ≤ 0x200A) || n == 0x2028 ||
  n == 0x2029 || n == 0x202F || n == 0x205F || n == 0x3000

/-- Python `str.strip()`: drop leading and trailing whitespace. -/
def pyStrip (s : List Char) : List Char :=
  ((s.dropWhile pySpace).reverse.dropWhile pySpace).reverse

/-- The dict returned by `LeidenToEpiDocConverter.get_epidoc` /
`_parse_response` in `leiden-epidoc.py`.  An `Option` field with value
`none` models a key that is absent from the Python dict (the error
dicts built in `get_epidoc` carry only `error`, `full_text` and
`has_tags`); for `error`, `none` also models the value `None`. -/
structure ConvResult where
  full_text : List Char
  has_tags : Bool
  analysis : Option (List Char)
  notes : Option (List Char)
  final_translation : Option (List Char)
  error : Option (List Char)
  deriving DecidableEq, Repr

/-- Embedding of `LeidenToEpiDocConverter._parse_response`
(`leiden-epidoc.py` lines 166-189): three independent regex searches;
all three fields are filled (stripped) only when all three match. -/
def parse_response (response_text : List Char) : ConvResult :=
  match searchGroup analysisName response_text,
        searchGroup notesName response_text,
        searchGroup translationName response_text with
  | some a, some n, some t =>
    { full_text := response_text
      has_tags := true
      analysis := some (pyStrip a)
      notes := some (pyStrip n)
      final_translation := some (pyStrip t)
      error := none }
  | _, _, _ =>
    { full_text := response_text
      has_tags := false
      analysis := some []
      notes := some []
      final_translation := some []
      error := none }

/-- The error text returned by `get_epidoc` when the API key is empty. -/
def apiKeyErrorMsg : List Char :=
  "Error: API key not configured. Please set it in Settings.".data

/-- The fixed head of the exception error message built in `get_epidoc`. -/
def errorHead : List Char := "Error during conversion: ".data

/-- Outcome of the `try` block of `get_epidoc` up to obtaining
`message.content[0].text`: either the response text, or an exception
with its `str(e)` message and the `traceback.format_exc()` string. -/
inductive ApiOutcome where
  | ok (text : List Char)
  | exn (msg : List Char) (tb : List Char)
  deriving DecidableEq, Repr

/-- Embedding of `LeidenToEpiDocConverter.get_epidoc` in
`leiden-epidoc.py` (lines 113-164).  `Python`'s `if not self.api_key`
is the emptiness test; the network call is abstracted by `api`, which
is consulted only on the non-empty-key path. -/
def get_epidoc (api_key : List Char) (leiden : List Char)
    (api : ApiOutcome) : ConvResult :=
  if api_key = [] then
    { full_text := apiKeyErrorMsg
      has_tags := false
      analysis := none
      notes := none
      final_translation := none
      error := some apiKeyErrorMsg }
  else
    match api with
    | ApiOutcome.ok text => parse_response text
    | ApiOutcome.exn msg tb =>
      let e := errorHead ++ msg ++ '\n' :: tb
      { full_text := e
        has_tags := false
        analysis := none
        notes := none
        final_translation := none
        error := some e }

/-- The list `x` is a letter-case variant of the lowercase literal
`pat` (character-wise, under `Char.toLower`). -/
def ciTok (x pat : List Char) : Prop := x.map Char.toLower = pat

instance (x pat : List Char) : Decidable (ciTok x pat) :=
  inferInstanceAs (Decidable (x.map Char.toLower = pat))

/-- A well-formed tag pair for `name` occurs in `s`: an opening tag
(in any letter case), then later a closing tag (in any letter case). -/
def TagOccurs (name s : List Char) : Prop :=
  ∃ u o v c w, s = u ++ o ++ v ++ c ++ w ∧
    ciTok o (openTagOf name) ∧ ciTok c (closeTagOf name)

/-- The list `pat` occurs contiguously inside `s`. -/
def hasSubstr (pat s : List Char) : Prop := ∃ u v, s = u ++ pat ++ v

/-- Membership of a code point in the fixed RTL ranges of
`LeidenEpiDocGUI._contains_rtl` (identical in the pyside and dpg
variants). -/
def isRtlChar (c : Char) : Bool :=
  let n := c.toNat
  (0x0590 ≤ n && n ≤ 0x05FF) || (0x0600 ≤ n && n ≤ 0x06FF) ||
  (0x0700 ≤ n && n ≤ 0x074F) || (0x0750 ≤ n && n ≤ 0x077F) ||
  (0x08A0 ≤ n && n ≤ 0x08FF) || (0xFB50 ≤ n && n ≤ 0xFDFF) ||
  (0xFE70 ≤ n && n ≤ 0xFEFF)

/-- Embedding of `LeidenEpiDocGUI._contains_rtl`: scan the characters
for one inside the ranges (the empty string returns `False`). -/
def contains_rtl (s : List Char) : Bool := s.any isRtlChar

/-- Embedding of `LeidenEpiDocGUI._bidi_visual`.  `hasBidi` models
`HAS_BIDI and callable(get_display)`; `g` models `get_display` (its
`try/except` fallback is a particular choice of `g`). -/
def bidi_visual (hasBidi : Bool) (g : List Char → List Char)
    (text : List Char) : List Char :=
  if text = [] then []
  else if hasBidi = false then text
  else if contains_rtl text then g text else text

/-- One step of the scan for the pattern `<[^>]+>`: given the input
just after a `<`, return the (nonempty) run of non-`>` characters and
the input after the following `>`, if the pattern matches here. -/
def tagBody (s : List Char) : Option (List Char × List Char) :=
  match s.dropWhile (fun c => c ≠ '>') with
  | [] => none
  | _ :: after =>
    if s.takeWhile (fun c => c ≠ '>') = [] then none
    else some (s.takeWhile (fun c => c ≠ '>'), after)

/-- Fueled scanner for `re.split(r"(<[^>]+>)", s)`: text pieces
alternate with the captured tag separators.  One unit of fuel is spent
per input character examined, so `fuel = s.length + 1` always
suffices. -/
def splitGo : Nat → List Char → List Char → List (List Char)
  | 0, acc, s => [acc.reverse ++ s]
  | _ + 1, acc, [] => [acc.reverse]
  | fuel + 1, acc, c :: rest =>
    if c = '<' then
      match tagBody rest with
      | some (body, after) =>
        acc.reverse :: ('<' :: (body ++ ['>'])) :: splitGo fuel [] after
      | none => splitGo fuel (c :: acc) rest
    else splitGo fuel (c :: acc) rest

/-- Embedding of `re.split(r"(<[^>]+>)", s)` as used by
`_bidi_visual_xml`. -/
def splitTags (s : List Char) : List (List Char) :=
  splitGo (s.length + 1) [] s

/-- Python `part.startswith("<") and part.endswith(">")` (false on the
empty string). -/
def isTagTok (p : List Char) : Bool :=
  match p with
  | [] => false
  | c :: _ => c = '<' && p.getLast? = some '>'

/-- Concatenation of a list of strings, `"".join(parts)`. -/
def joinl : List (List Char) → List Char
  | [] => []
  | x :: xs => x ++ joinl xs

/-- Embedding of `LeidenEpiDocGUI._bidi_visual_xml` (identical logic in
the pyside and dpg variants): split on `(<[^>]+>)`, leave empty parts
and tag-shaped parts alone, reorder the remaining text parts, join. -/
def bidi_visual_xml (hasBidi : Bool) (g : List Char → List Char)
    (xml_text : List Char) : List Char :=
  if xml_text = [] then xml_text
  else if hasBidi = false then xml_text
  else joinl ((splitTags xml_text).map (fun p =>
    if p = [] then p
    else if isTagTok p then p
    else bidi_visual hasBidi g p))

/-- The strings `ts` occur, contiguously, unchanged and in order,
inside `out` (possibly separated by arbitrary other text). -/
def interleavesTags : List (List Char) → List Char → Prop
  | [], _ => True
  | t :: ts, out => ∃ u rest, out = u ++ t ++ rest ∧ interleavesTags ts rest

/-- The placeholder prompt text of the input widget. -/
def placeholderMsg : List Char :=
  "Enter Leiden Convention text here or load from file...".data

/-- The text a conversion entry point operates on: the logical backing
store when it is not `None`, otherwise the widget text. -/
def effectiveInput (input_logical : Option (List Char))
    (widget_text : List Char) : List Char :=
  match input_logical with
  | some t => t
  | none => widget_text

/-- Embedding of `LeidenEpiDocGUI.convert_text` (pyside variant, lines
590-605): returns the text handed to `ConversionThread`/`get_epidoc`,
or `none` when the input is rejected with a warning. -/
def convert_text (input_logical : Option (List Char))
    (widget_text : List Char) : Option (List Char) :=
  let leiden_text := effectiveInput input_logical widget_text
  if leiden_text = [] then none
  else if leiden_text = placeholderMsg then none
  else some leiden_text

/-- Embedding of `LeidenEpiDocGUI.convert_callback` (dpg variant, lines
496-508): same validation as `convert_text`. -/
def convert_callback (input_logical : Option (List Char))
    (widget_text : List Char) : Option (List Char) :=
  let leiden_text := effectiveInput input_logical widget_text
  if leiden_text = [] then none
  else if leiden_text = placeholderMsg then none
  else some leiden_text

/-- Embedding of `ConversionThread.run` in `leiden-epidoc.py` (lines
63-74): the list of texts passed to `converter.get_epidoc`, in order.
The loop calls `get_epidoc(file_item.input_text)` for every queued file
item unconditionally, so every input text is sent. -/
def conversionThread_run (file_inputs : List (List Char)) :
    List (List Char) := file_inputs

end LeidenEpiDoc

namespace LeidenEpiDoc

/-- A file item as consumed by the batch save path: its file name and
its (completed) conversion result. -/
structure FileOut where
  file_name : List Char
  input_text : List Char
  result : ConvResult
  deriving DecidableEq, Repr

/-- Embedding of `os.path.splitext` on a plain file name: split at the
last dot, unless every character before that dot is a dot. -/
def splitext (name : List Char) : List Char × List Char :=
  match name.reverse.findIdx? (fun c => c = '.') with
  | none => (name, [])
  | some r =>
    let d := name.length - 1 - r
    if (name.take d).all (fun c => c = '.') then (name, [])
    else (name.take d, name.drop d)

/-- Embedding of `LeidenEpiDocGUI._get_output_info_for_tab`
(`leiden-epidoc.py` lines 1068-1083): `(content, default file name,
extension)` for a tab index. -/
def get_output_info_for_tab (it : FileOut) (tab_index : Nat) :
    List Char × List Char × List Char :=
  let base_name := (splitext it.file_name).1
  let original_ext :=
    if (splitext it.file_name).2 = [] then ".txt".data
    else (splitext it.file_name).2
  if tab_index = 0 then (it.input_text, it.file_name, original_ext)
  else if tab_index = 1 then
    ((it.result.final_translation).getD [],
      base_name ++ "_epidoc.xml".data, ".xml".data)
  else if tab_index = 2 then
    ((it.result.notes).getD [], base_name ++ "_notes.txt".data, ".txt".data)
  else if tab_index = 3 then
    ((it.result.analysis).getD [],
      base_name ++ "_analysis.txt".data, ".txt".data)
  else (it.result.full_text, base_name ++ "_full.txt".data, ".txt".data)

/-- One decimal digit as a character. -/
def digitToChar (d : Nat) : Char :=
  if d = 0 then '0' else if d = 1 then '1' else if d = 2 then '2'
  else if d = 3 then '3' else if d = 4 then '4' else if d = 5 then '5'
  else if d = 6 then '6' else if d = 7 then '7' else if d = 8 then '8'
  else '9'

/-- Fueled decimal rendering; `fuel ≥ n` always suffices. -/
def natDigitsGo : Nat → Nat → List Char
  | 0, _ => []
  | fuel + 1, n =>
    if n = 0 then [] else natDigitsGo fuel (n / 10) ++ [digitToChar (n % 10)]

/-- Python `str(k)` for a positive counter `k`. -/
def strNum (k : Nat) : List Char := natDigitsGo k k

/-- Decimal value of a digit string (left inverse of `strNum`). -/
def ofDigitsChars (s : List Char) : Nat :=
  s.foldl (fun acc c => acc * 10 + (c.toNat - 48)) 0

/-- The collision file name `f"{base}_{counter}{ext}"`. -/
def collisionName (base ext : List Char) (k : Nat) : List Char :=
  base ++ '_' :: (strNum k ++ ext)

/-- The `while final_name in used_names` loop of `_save_multiple_files`:
try `collisionName base ext k`, `k+1`, ... until a name not in `used`
is found.  The loop examines at most `used.length + 1` candidates (they
are pairwise distinct), which is the fuel the caller supplies. -/
def findFree (base ext : List Char) (used : List (List Char)) :
    Nat → Nat → List Char
  | 0, k => collisionName base ext k
  | fuel + 1, k =>
    if collisionName base ext k ∈ used then findFree base ext used fuel (k + 1)
    else collisionName base ext k

/-- Collision handling of `_save_multiple_files` for one default name:
keep it if unused, otherwise append `_1`, `_2`, ... before the
extension until free. -/
def resolveName (default_name : List Char) (used : List (List Char)) :
    List Char :=
  if default_name ∈ used then
    findFree (splitext default_name).1 (splitext default_name).2 used
      (used.length + 1) 1
  else default_name

/-- The loop body of `_save_multiple_files`: skip items whose content
strips to empty, otherwise resolve the name against `used`, record the
write and add the name to `used`. -/
def saveGo : List FileOut → Nat → List (List Char) →
    List (List Char × List Char)
  | [], _, _ => []
  | it :: rest, tab_index, used =>
    let info := get_output_info_for_tab it tab_index
    if pyStrip info.1 = [] then saveGo rest tab_index used
    else
      let final_name := resolveName info.2.1 used
      (final_name, info.1) :: saveGo rest tab_index (final_name :: used)

/-- Embedding of `LeidenEpiDocGUI._save_multiple_files`
(`leiden-epidoc.py` lines 1113-1166): the `(file name, content)` pairs
written, in order, starting from an empty `used_names` set. -/
def save_multiple_files (file_items : List FileOut) (tab_index : Nat) :
    List (List Char × List Char) :=
  saveGo file_items tab_index []

end LeidenEpiDoc

namespace LeidenEpiDoc

/-- Claim C4: with an empty API key, `get_epidoc` is independent of the
API outcome (no client is built, no call is made), and the result has
`has_tags = False` and `error` and `full_text` containing the substring
"API key not configured". -/
theorem claim4 (leiden : List Char) (api api2 : ApiOutcome) :
    get_epidoc [] leiden api = get_epidoc [] leiden api2 ∧
    (get_epidoc [] leiden api).has_tags = false ∧
    (∃ e, (get_epidoc [] leiden api).error = some e ∧
      hasSubstr "API key not configured".data e) ∧
    hasSubstr "API key not configured".data
      (get_epidoc [] leiden api).full_text := by
  have hmsg : apiKeyErrorMsg =
      "Error: ".data ++ "API key not configured".data ++
        ". Please set it in Settings.".data := by decide
  refine ⟨rfl, rfl,
    ⟨apiKeyErrorMsg, rfl,
      ⟨"Error: ".data, ". Please set it in Settings.".data, hmsg⟩⟩,
    ⟨"Error: ".data, ". Please set it in Settings.".data, ?_⟩⟩
  show apiKeyErrorMsg = _
  exact hmsg

/-- Claim C5: with a non-empty API key, an exception in the API call is
caught and turned into a result whose `error` and `full_text` both hold
the error string (which contains the exception message and the
traceback); the three extraction keys are absent (no parsing happens)
and `has_tags = False`. -/
theorem claim5 (api_key leiden msg tb : List Char) (h : api_key ≠ []) :
    get_epidoc api_key leiden (ApiOutcome.exn msg tb) =
      { full_text := errorHead ++ msg ++ '\n' :: tb
        has_tags := false
        analysis := none
        notes := none
        final_translation := none
        error := some (errorHead ++ msg ++ '\n' :: tb) } ∧
    hasSubstr msg (errorHead ++ msg ++ '\n' :: tb) ∧
    hasSubstr tb (errorHead ++ msg ++ '\n' :: tb) := by
  refine ⟨?_, ⟨errorHead, '\n' :: tb, by simp⟩, ⟨errorHead ++ msg ++ ['\n'], [], by simp⟩⟩
  simp only [get_epidoc, if_neg h]

/-- Witness for C5 at a concrete key, input, message and traceback. -/
theorem claim5_witness :
    get_epidoc "k".data "text".data (ApiOutcome.exn "boom".data "tb".data) =
      { full_text := errorHead ++ "boom".data ++ '\n' :: "tb".data
        has_tags := false
        analysis := none
        notes := none
        final_translation := none
        error := some (errorHead ++ "boom".data ++ '\n' :: "tb".data) } ∧
    hasSubstr "boom".data (errorHead ++ "boom".data ++ '\n' :: "tb".data) ∧
    hasSubstr "tb".data (errorHead ++ "boom".data ++ '\n' :: "tb".data) :=
  claim5 "k".data "text".data "boom".data "tb".data (by decide)

/-- Claim C7: `_bidi_visual` returns any string with no character in
the RTL ranges unchanged; with the bidi library unavailable it returns
every input unchanged; and `get_display` is applied exactly when the
input contains an RTL-range character (and the library is available). -/
theorem claim7 :
    (∀ (hasBidi : Bool) (g : List Char → List Char) (s : List Char),
      (∀ c ∈ s, isRtlChar c = false) → bidi_visual hasBidi g s = s) ∧
    (∀ (g : List Char → List Char) (s : List Char),
      bidi_visual false g s = s) ∧
    (∀ (g : List Char → List Char) (s : List Char),
      contains_rtl s = true → bidi_visual true g s = g s) := by
  refine ⟨?_, ?_, ?_⟩
  · intro hasBidi g s h
    have hrtl : contains_rtl s = false := by
      simp only [contains_rtl, List.any_eq_false]
      intro c hc
      simp [h c hc]
    by_cases hs : s = []
    · simp [bidi_visual, hs]
    · simp [bidi_visual, hs, hrtl]
  · intro g s
    by_cases hs : s = []
    · simp [bidi_visual, hs]
    · simp [bidi_visual, hs]
  · intro g s h
    have hs : s ≠ [] := by
      intro hs
      rw [hs] at h
      exact absurd h (by decide)
    simp [bidi_visual, hs, h]

/-- Witness for C7: a pure-ASCII string is unchanged, an unavailable
bidi library leaves input unchanged, and a Hebrew string is handed to
the reordering function. -/
theorem claim7_witness :
    bidi_visual true (fun _ => "X".data) "abc".data = "abc".data ∧
    bidi_visual false (fun _ => "X".data) "אבג".data = "אבג".data ∧
    bidi_visual true (fun _ => "X".data) "אבג".data =
      (fun _ => "X".data) "אבג".data :=
  ⟨claim7.1 true (fun _ => "X".data) "abc".data (by decide),
   claim7.2.1 (fun _ => "X".data) "אבג".data,
   claim7.2.2 (fun _ => "X".data) "אבג".data (by decide)⟩

/-- Counterexample to claim C8: the batch variant's `ConversionThread.run`
performs no input validation, so a queued file whose text is empty is
still passed to `get_epidoc` — the list of texts sent to the converter
for a single empty-text file is `[""]`, not `[]`. -/
theorem claim8_counterexample :
    conversionThread_run [[]] = [[]] ∧
    ([[]] : List (List Char)) ≠ [] := ⟨rfl, by decide⟩

/-- Claim C8 as amended: in the pyside (`convert_text`) and dpg
(`convert_callback`) variants, input that is empty or equal to the
placeholder prompt text is rejected (nothing is sent), any other input
is sent to `get_epidoc` unchanged with no further validation; the batch
variant's `ConversionThread.run` performs no input validation and sends
every queued file's text, including empty text, to `get_epidoc`. -/
theorem claim8_amended :
    (∀ (input_logical : Option (List Char)) (widget_text : List Char),
      ((effectiveInput input_logical widget_text = [] ∨
        effectiveInput input_logical widget_text = placeholderMsg) →
          convert_text input_logical widget_text = none) ∧
      (effectiveInput input_logical widget_text ≠ [] →
        effectiveInput input_logical widget_text ≠ placeholderMsg →
          convert_text input_logical widget_text =
            some (effectiveInput input_logical widget_text))) ∧
    (∀ (input_logical : Option (List Char)) (widget_text : List Char),
      ((effectiveInput input_logical widget_text = [] ∨
        effectiveInput input_logical widget_text = placeholderMsg) →
          convert_callback input_logical widget_text = none) ∧
      (effectiveInput input_logical widget_text ≠ [] →
        effectiveInput input_logical widget_text ≠ placeholderMsg →
          convert_callback input_logical widget_text =
            some (effectiveInput input_logical widget_text))) ∧
    (∀ file_inputs : List (List Char),
      conversionThread_run file_inputs = file_inputs) := by
  refine ⟨?_, ?_, fun _ => rfl⟩ <;>
  · intro il wt
    constructor
    · rintro (h | h) <;>
        simp [convert_text, convert_callback, h]
    · intro h1 h2
      simp [convert_text, convert_callback, h1, h2]

/-- Witness for the amended C8: the placeholder text is rejected by the
pyside entry point, and a real input is forwarded unchanged. -/
theorem claim8_amended_witness :
    convert_text (some placeholderMsg) [] = none ∧
    convert_text (some "Le[g]".data) [] = some "Le[g]".data :=
  ⟨(claim8_amended.1 (some placeholderMsg) []).1 (Or.inr rfl),
   (claim8_amended.1 (some "Le[g]".data) []).2 (by decide) (by decide)⟩

/-- A case variant has the length of its lowercase pattern. -/
theorem ciTok_length {x pat : List Char} (h : ciTok x pat) :
    x.length = pat.length := by
  have := congrArg List.length h
  simpa using this

/-- A case variant of `pat` followed by anything matches `pat`
case-insensitively at the head. -/
theorem ciStartsWith_append {pat x : List Char} (r : List Char)
    (h : ciTok x pat) : ciStartsWith pat (x ++ r) = true := by
  induction x generalizing pat with
  | nil =>
    have : pat = [] := by simpa [ciTok] using h.symm
    subst this
    rfl
  | cons a as ih =>
    have : pat = Char.toLower a :: List.map Char.toLower as := by
      simpa [ciTok] using h.symm
    subst this
    simp [ciStartsWith, ih rfl]

/-- A head match of `pat` yields a case variant of `pat` as the first
`pat.length` characters. -/
theorem ciStartsWith_take {pat t : List Char}
    (h : ciStartsWith pat t = true) : ciTok (t.take pat.length) pat := by
  induction pat generalizing t with
  | nil => simp [ciTok]
  | cons p ps ih =>
    cases t with
    | nil => simp [ciStartsWith] at h
    | cons c cs =>
      simp only [ciStartsWith, Bool.and_eq_true, decide_eq_true_eq] at h
      obtain ⟨h1, h2⟩ := h
      show List.map Char.toLower (c :: cs.take ps.length) = p :: ps
      rw [List.map_cons, h1, ih h2]

/-- Soundness of the scan: `findIdx` reports a position that matches,
and no earlier position matches. -/
theorem findIdx_sound {pat : List Char} : ∀ {s : List Char} {i : Nat},
    findIdx pat s = some i →
    ciStartsWith pat (s.drop i) = true ∧
      ∀ k, k < i → ciStartsWith pat (s.drop k) = false := by
  intro s
  induction s with
  | nil =>
    intro i h
    simp only [findIdx] at h
    split at h
    · cases h
      exact ⟨‹_›, fun k hk => absurd hk (Nat.not_lt_zero k)⟩
    · exact Option.noConfusion h
  | cons c rest ih =>
    intro i h
    simp only [findIdx] at h
    split at h
    · cases h
      exact ⟨‹_›, fun k hk => absurd hk (Nat.not_lt_zero k)⟩
    · rename_i hfalse
      cases hfi : findIdx pat rest with
      | none => rw [hfi] at h; simp at h
      | some i' =>
        rw [hfi] at h
        simp only [Option.map_some', Option.some.injEq] at h
        subst h
        obtain ⟨hm, hmin⟩ := ih hfi
        refine ⟨by simpa using hm, ?_⟩
        intro k hk
        cases k with
        | zero => simpa using hfalse
        | succ k' =>
          rw [List.drop_succ_cons]
          exact hmin k' (by omega)

/-- Completeness of the scan: if `pat` matches at position `j`, then
`findIdx` finds some position at most `j`. -/
theorem findIdx_complete {pat : List Char} : ∀ {s : List Char} {j : Nat},
    ciStartsWith pat (s.drop j) = true →
    ∃ i, findIdx pat s = some i ∧ i ≤ j := by
  intro s
  induction s with
  | nil =>
    intro j h
    rw [List.drop_nil] at h
    exact ⟨0, by simp [findIdx, h], Nat.zero_le j⟩
  | cons c rest ih =>
    intro j h
    by_cases hc : ciStartsWith pat (c :: rest) = true
    · exact ⟨0, by simp [findIdx, hc], Nat.zero_le j⟩
    · cases j with
      | zero => rw [List.drop_zero] at h; exact absurd h hc
      | succ j' =>
        rw [List.drop_succ_cons] at h
        obtain ⟨i', hi', hle⟩ := ih h
        exact ⟨i' + 1, by simp [findIdx, hc, hi'], by omega⟩

/-- If the search succeeds, the group is flanked by case variants of the
opening and closing tags inside the input. -/
theorem searchGroup_flank {name s g : List Char}
    (h : searchGroup name s = some g) :
    ∃ u o c w, s = u ++ o ++ g ++ c ++ w ∧
      ciTok o (openTagOf name) ∧ ciTok c (closeTagOf name) := by
  cases hfi : findIdx (openTagOf name) s with
  | none =>
    simp only [searchGroup, hfi] at h
    exact Option.noConfusion h
  | some i =>
    cases hfc : findIdx (closeTagOf name)
        (s.drop (i + (openTagOf name).length)) with
    | none =>
      simp only [searchGroup, hfi, hfc] at h
      exact Option.noConfusion h
    | some j =>
      simp only [searchGroup, hfi, hfc, Option.some.injEq] at h
      subst h
      obtain ⟨hoi, _⟩ := findIdx_sound hfi
      obtain ⟨hcj, _⟩ := findIdx_sound hfc
      refine ⟨s.take i, (s.drop i).take (openTagOf name).length,
        ((s.drop (i + (openTagOf name).length)).drop j).take
          (closeTagOf name).length,
        ((s.drop (i + (openTagOf name).length)).drop j).drop
          (closeTagOf name).length,
        ?_, ciStartsWith_take hoi, ciStartsWith_take hcj⟩
      have e3 : (s.drop i).drop (openTagOf name).length =
          s.drop (i + (openTagOf name).length) := List.drop_drop _ _ _
      conv_lhs =>
        rw [← List.take_append_drop i s,
          ← List.take_append_drop (openTagOf name).length (s.drop i), e3,
          ← List.take_append_drop j (s.drop (i + (openTagOf name).length)),
          ← List.take_append_drop (closeTagOf name).length
            ((s.drop (i + (openTagOf name).length)).drop j)]
      simp [List.append_assoc]

/-- Completeness of the search: a tag pair occurring anywhere makes the
search succeed. -/
theorem searchGroup_isSome {name s : List Char} (h : TagOccurs name s) :
    (searchGroup name s).isSome = true := by
  obtain ⟨u, o, v, c, w, hs, ho, hc⟩ := h
  have hol : o.length = (openTagOf name).length := ciTok_length ho
  have hmo : ciStartsWith (openTagOf name) (s.drop u.length) = true := by
    rw [hs, show u ++ o ++ v ++ c ++ w = u ++ (o ++ (v ++ (c ++ w))) by
      simp [List.append_assoc], List.drop_left]
    exact ciStartsWith_append _ ho
  obtain ⟨i, hi, hile⟩ := findIdx_complete hmo
  have hple : i + (openTagOf name).length ≤ u.length + o.length + v.length := by
    rw [← hol]; omega
  have hmc : ciStartsWith (closeTagOf name)
      ((s.drop (i + (openTagOf name).length)).drop
        (u.length + o.length + v.length - (i + (openTagOf name).length))) =
        true := by
    rw [List.drop_drop, Nat.add_sub_cancel' hple]
    rw [hs, show u ++ o ++ v ++ c ++ w = (u ++ o ++ v) ++ (c ++ w) by
      simp [List.append_assoc],
      show u.length + o.length + v.length = (u ++ o ++ v).length by
        simp [Nat.add_assoc],
      List.drop_left]
    exact ciStartsWith_append _ hc
  obtain ⟨j, hj, _⟩ := findIdx_complete hmc
  simp [searchGroup, hi, hj]

/-- The search fails exactly when no tag pair occurs. -/
theorem searchGroup_none_iff (name s : List Char) :
    searchGroup name s = none ↔ ¬ TagOccurs name s := by
  constructor
  · intro hn hocc
    have := searchGroup_isSome hocc
    rw [hn] at this
    exact Bool.noConfusion this
  · intro hno
    cases hsg : searchGroup name s with
    | none => rfl
    | some g =>
      obtain ⟨u, o, c, w, hs, ho, hc⟩ := searchGroup_flank hsg
      exact absurd ⟨u, o, g, c, w, hs, ho, hc⟩ hno

/-- The lazy group stops before the first closing tag: no case variant
of the closing tag occurs inside the extracted group. -/
theorem group_no_close {name s g : List Char}
    (h : searchGroup name s = some g) :
    ¬ ∃ x y z, g = x ++ y ++ z ∧ ciTok y (closeTagOf name) := by
  rintro ⟨x, y, z, hg, hy⟩
  cases hfi : findIdx (openTagOf name) s with
  | none =>
    simp only [searchGroup, hfi] at h
    exact Option.noConfusion h
  | some i =>
    cases hfc : findIdx (closeTagOf name)
        (s.drop (i + (openTagOf name).length)) with
    | none =>
      simp only [searchGroup, hfi, hfc] at h
      exact Option.noConfusion h
    | some j =>
      simp only [searchGroup, hfi, hfc, Option.some.injEq] at h
      obtain ⟨_, hmin⟩ := findIdx_sound hfc
      have hglen : g.length ≤ j := by
        rw [← h, List.length_take]
        exact Nat.min_le_left _ _
      have hylen : 0 < y.length := by
        rw [ciTok_length hy]
        simp [closeTagOf]
      have hxlt : x.length < j := by
        have : g.length = x.length + y.length + z.length := by
          rw [hg]; simp [Nat.add_assoc]
        omega
      have hmatch : ciStartsWith (closeTagOf name)
          ((s.drop (i + (openTagOf name).length)).drop x.length) = true := by
        have hrest : s.drop (i + (openTagOf name).length) =
            x ++ (y ++ (z ++ (s.drop (i + (openTagOf name).length)).drop j)) := by
          conv_lhs =>
            rw [← List.take_append_drop j (s.drop (i + (openTagOf name).length)),
              h, hg]
          simp [List.append_assoc]
        rw [hrest, List.drop_left]
        exact ciStartsWith_append _ hy
      have hfalse := hmin x.length hxlt
      rw [hmatch] at hfalse
      exact Bool.noConfusion hfalse

/-- The search picks the leftmost opening tag and the first closing tag
after it: a decomposition whose opening tag is preceded by no earlier
opening-tag match and whose middle contains no closing-tag match is the
one extracted. -/
theorem searchGroup_leftmost {name s u o v c w : List Char}
    (hs : s = u ++ o ++ v ++ c ++ w)
    (ho : ciTok o (openTagOf name)) (hc : ciTok c (closeTagOf name))
    (h1 : ∀ k, k < u.length →
      ciStartsWith (openTagOf name) (s.drop k) = false)
    (h2 : ∀ k, k < v.length →
      ciStartsWith (closeTagOf name)
        (s.drop (u.length + o.length + k)) = false) :
    searchGroup name s = some v := by
  have hol : o.length = (openTagOf name).length := ciTok_length ho
  have hmo : ciStartsWith (openTagOf name) (s.drop u.length) = true := by
    rw [hs, show u ++ o ++ v ++ c ++ w = u ++ (o ++ (v ++ (c ++ w))) by
      simp [List.append_assoc], List.drop_left]
    exact ciStartsWith_append _ ho
  obtain ⟨i, hi, hile⟩ := findIdx_complete hmo
  obtain ⟨hoi, _⟩ := findIdx_sound hi
  have hieq : i = u.length := by
    rcases Nat.lt_or_ge i u.length with hlt | hge
    · have hf := h1 i hlt
      rw [hoi] at hf
      exact Bool.noConfusion hf
    · omega
  subst hieq
  have hrest : s.drop (u.length + (openTagOf name).length) = v ++ (c ++ w) := by
    rw [← hol, hs, show u ++ o ++ v ++ c ++ w = (u ++ o) ++ (v ++ (c ++ w)) by
      simp [List.append_assoc],
      show u.length + o.length = (u ++ o).length by simp, List.drop_left]

  have hmc : ciStartsWith (closeTagOf name)
      ((s.drop (u.length + (openTagOf name).length)).drop v.length) = true := by
    rw [hrest, List.drop_left]
    exact ciStartsWith_append _ hc
  obtain ⟨j, hj, hjle⟩ := findIdx_complete hmc
  obtain ⟨hcj, _⟩ := findIdx_sound hj
  have hjeq : j = v.length := by
    rcases Nat.lt_or_ge j v.length with hlt | hge
    · have hf := h2 j hlt
      rw [List.drop_drop] at hcj
      rw [show u.length + (openTagOf name).length + j =
          u.length + o.length + j by rw [hol]] at hcj
      rw [hcj] at hf
      exact Bool.noConfusion hf
    · omega
  subst hjeq
  simp only [searchGroup, hi, hj]
  rw [hrest, List.take_left]

/-- Claim C1: when all three tag pairs occur (in any order and any
letter case), `_parse_response` returns `has_tags = True` and each of
the three fields is the trimmed inner content of an occurrence of its
tag pair (the content flanked by case variants of the opening and
closing tags). -/
theorem claim1 (s : List Char)
    (hA : TagOccurs analysisName s) (hN : TagOccurs notesName s)
    (hT : TagOccurs translationName s) :
    (parse_response s).has_tags = true ∧
    (∃ u o g c w, s = u ++ o ++ g ++ c ++ w ∧
      ciTok o (openTagOf analysisName) ∧ ciTok c (closeTagOf analysisName) ∧
      (parse_response s).analysis = some (pyStrip g)) ∧
    (∃ u o g c w, s = u ++ o ++ g ++ c ++ w ∧
      ciTok o (openTagOf notesName) ∧ ciTok c (closeTagOf notesName) ∧
      (parse_response s).notes = some (pyStrip g)) ∧
    (∃ u o g c w, s = u ++ o ++ g ++ c ++ w ∧
      ciTok o (openTagOf translationName) ∧
      ciTok c (closeTagOf translationName) ∧
      (parse_response s).final_translation = some (pyStrip g)) := by
  obtain ⟨a, ha⟩ := Option.isSome_iff_exists.mp (searchGroup_isSome hA)
  obtain ⟨n, hn⟩ := Option.isSome_iff_exists.mp (searchGroup_isSome hN)
  obtain ⟨t, ht⟩ := Option.isSome_iff_exists.mp (searchGroup_isSome hT)
  obtain ⟨ua, oa, ca, wa, hsa, hoa, hca⟩ := searchGroup_flank ha
  obtain ⟨un, o2, cn, wn, hsn, hon, hcn⟩ := searchGroup_flank hn
  obtain ⟨ut, ot, ct, wt, hst, hot, hct⟩ := searchGroup_flank ht
  refine ⟨?_, ⟨ua, oa, a, ca, wa, hsa, hoa, hca, ?_⟩,
    ⟨un, o2, n, cn, wn, hsn, hon, hcn, ?_⟩,
    ⟨ut, ot, t, ct, wt, hst, hot, hct, ?_⟩⟩ <;>
    simp [parse_response, ha, hn, ht]

/-- Witness for C1: a response with all three tags, in mixed letter
case and with padding, is recognised. -/
theorem claim1_witness :
    (parse_response ("pre <ANALYSIS> alpha </Analysis> mid " ++
      "<NoTeS>n1</NOTES> <Final_Translation> t2 </FINAL_TRANSLATION> post").data).has_tags
      = true :=
  (claim1 _
    ⟨"pre ".data, "<ANALYSIS>".data, " alpha ".data, "</Analysis>".data,
      (" mid <NoTeS>n1</NOTES> <Final_Translation> t2 " ++
        "</FINAL_TRANSLATION> post").data,
      by decide, by decide, by decide⟩
    ⟨"pre <ANALYSIS> alpha </Analysis> mid ".data, "<NoTeS>".data,
      "n1".data, "</NOTES>".data,
      " <Final_Translation> t2 </FINAL_TRANSLATION> post".data,
      by decide, by decide, by decide⟩
    ⟨"pre <ANALYSIS> alpha </Analysis> mid <NoTeS>n1</NOTES> ".data,
      "<Final_Translation>".data, " t2 ".data, "</FINAL_TRANSLATION>".data,
      " post".data, by decide, by decide, by decide⟩).1

/-- Claim C2: when at least one of the three tag pairs is absent,
`_parse_response` returns `has_tags = False`, all three fields empty,
`error = None`, and `full_text` equal to the input verbatim. -/
theorem claim2 (s : List Char)
    (h : ¬ TagOccurs analysisName s ∨ ¬ TagOccurs notesName s ∨
      ¬ TagOccurs translationName s) :
    parse_response s =
      { full_text := s
        has_tags := false
        analysis := some []
        notes := some []
        final_translation := some []
        error := none } := by
  have key : searchGroup analysisName s = none ∨
      searchGroup notesName s = none ∨
      searchGroup translationName s = none := by
    rcases h with h | h | h
    · exact Or.inl ((searchGroup_none_iff _ _).mpr h)
    · exact Or.inr (Or.inl ((searchGroup_none_iff _ _).mpr h))
    · exact Or.inr (Or.inr ((searchGroup_none_iff _ _).mpr h))
  rcases hA : searchGroup analysisName s with _ | a <;>
    rcases hN : searchGroup notesName s with _ | n <;>
      rcases hT : searchGroup translationName s with _ | t <;>
        simp only [parse_response, hA, hN, hT]
  rcases key with k | k | k
  · rw [hA] at k; exact Option.noConfusion k
  · rw [hN] at k; exact Option.noConfusion k
  · rw [hT] at k; exact Option.noConfusion k

/-- Witness for C2: a response that has `analysis` and `notes` tag
pairs but no `final_translation` pair yields the fallback result. -/
theorem claim2_witness :
    parse_response "<analysis>a</analysis><notes>n</notes>".data =
      { full_text := "<analysis>a</analysis><notes>n</notes>".data
        has_tags := false
        analysis := some []
        notes := some []
        final_translation := some []
        error := none } :=
  claim2 _ (Or.inr (Or.inr ((searchGroup_none_iff _ _).mp (by decide))))

/-- Claim C3: the extracted group never contains a (case variant of
the) closing tag — the match is the shortest span, up to the first
subsequent closing tag — and it may span multiple lines, with internal
newlines preserved and whitespace trimmed only at the outer
boundaries; on the end-to-end example the embedded `<supplied>`
markup does not terminate the `final_translation` match. -/
theorem claim3 :
    (∀ name s g, searchGroup name s = some g →
      ¬ ∃ x y z, g = x ++ y ++ z ∧ ciTok y (closeTagOf name)) ∧
    parse_response ("<analysis>a</analysis><notes>n</notes>" ++
        "<final_translation>Le<supplied reason=\"lost\">g</supplied>" ++
        "</final_translation>").data =
      { full_text := ("<analysis>a</analysis><notes>n</notes>" ++
          "<final_translation>Le<supplied reason=\"lost\">g</supplied>" ++
          "</final_translation>").data
        has_tags := true
        analysis := some "a".data
        notes := some "n".data
        final_translation :=
          some "Le<supplied reason=\"lost\">g</supplied>".data
        error := none } ∧
    (parse_response ("<analysis>\n line1\nline2 \n</analysis>" ++
        "<notes>n</notes><final_translation>t</final_translation>").data).analysis
      = some "line1\nline2".data :=
  ⟨fun _ _ _ h => group_no_close h, by decide, by decide⟩

/-- Witness for C3: the group extracted from a concrete response
contains no closing tag. -/
theorem claim3_witness :
    ¬ ∃ x y z, "a".data = x ++ y ++ z ∧ ciTok y (closeTagOf analysisName) :=
  claim3.1 analysisName "<analysis>a</analysis>".data "a".data (by decide)

/-- Claim C10: each section extracts from the leftmost occurrence of
its pattern (leftmost opening tag, first closing tag after it), later
occurrences being ignored, and the three sections are searched
independently: on a response whose `notes` pair sits inside the
`analysis` content both are extracted, and a duplicated `analysis`
pair yields the first occurrence's content. -/
theorem claim10 :
    (∀ name s u o v c w, s = u ++ o ++ v ++ c ++ w →
      ciTok o (openTagOf name) → ciTok c (closeTagOf name) →
      (∀ k, k < u.length →
        ciStartsWith (openTagOf name) (s.drop k) = false) →
      (∀ k, k < v.length →
        ciStartsWith (closeTagOf name)
          (s.drop (u.length + o.length + k)) = false) →
      searchGroup name s = some v) ∧
    parse_response ("<analysis>a<notes>n</notes></analysis>" ++
        "<final_translation>t</final_translation>").data =
      { full_text := ("<analysis>a<notes>n</notes></analysis>" ++
          "<final_translation>t</final_translation>").data
        has_tags := true
        analysis := some "a<notes>n</notes>".data
        notes := some "n".data
        final_translation := some "t".data
        error := none } ∧
    (parse_response ("<analysis>one</analysis><analysis>two</analysis>" ++
        "<notes>n</notes><final_translation>t</final_translation>").data).analysis
      = some "one".data :=
  ⟨fun _ _ _ _ _ _ _ hs ho hc h1 h2 =>
    searchGroup_leftmost hs ho hc h1 h2, by decide, by decide⟩

/-- Witness for C10: the leftmost-match characterisation applied to a
concrete string whose opening tag is preceded by two junk characters. -/
theorem claim10_witness :
    searchGroup analysisName "xx<ANALYSIS>g</analysis>yy".data =
      some "g".data :=
  claim10.1 analysisName "xx<ANALYSIS>g</analysis>yy".data
    "xx".data "<ANALYSIS>".data "g".data "</analysis>".data "yy".data
    (by decide) (by decide) (by decide) (by decide) (by decide)

/-- The first element surviving a `dropWhile` fails the predicate. -/
theorem dropWhile_head_false {α : Type} {p : α → Bool} :
    ∀ {l : List α} {a : α} {r : List α},
      l.dropWhile p = a :: r → p a = false := by
  intro l
  induction l with
  | nil =>
    intro a r h
    simp at h
  | cons c cs ih =>
    intro a r h
    rw [List.dropWhile_cons] at h
    split at h
    · exact ih h
    · cases h
      rename_i hp
      simpa using hp

/-- A successful `tagBody` step decomposes its input around the `>`. -/
theorem tagBody_eq {s body after : List Char}
    (h : tagBody s = some (body, after)) : s = body ++ '>' :: after := by
  cases hd : s.dropWhile (fun c => c ≠ '>') with
  | nil =>
    simp only [tagBody, hd] at h
    exact Option.noConfusion h
  | cons d rest =>
    simp only [tagBody, hd] at h
    split at h
    · exact Option.noConfusion h
    · simp only [Option.some.injEq, Prod.mk.injEq] at h
      obtain ⟨hb, ha⟩ := h
      have hdg : d = '>' := by simpa using dropWhile_head_false hd
      subst hdg
      rw [← hb, ← ha, ← hd]
      exact (List.takeWhile_append_dropWhile _ _).symm

/-- The input strictly shrinks across a successful `tagBody` step. -/
theorem tagBody_after_lt {s body after : List Char}
    (h : tagBody s = some (body, after)) : after.length < s.length := by
  have := congrArg List.length (tagBody_eq h)
  simp at this
  omega

/-- Joining the pieces of the tag split recovers the input. -/
theorem joinl_splitGo : ∀ (fuel : Nat) (acc s : List Char),
    s.length < fuel → joinl (splitGo fuel acc s) = acc.reverse ++ s := by
  intro fuel
  induction fuel with
  | zero =>
    intro acc s h
    exact absurd h (Nat.not_lt_zero _)
  | succ fuel ih =>
    intro acc s h
    cases s with
    | nil => simp [splitGo, joinl]
    | cons c rest =>
      by_cases hc : c = '<'
      · subst hc
        cases htb : tagBody rest with
        | none =>
          rw [show splitGo (fuel + 1) acc ('<' :: rest) =
              splitGo fuel ('<' :: acc) rest by simp [splitGo, htb]]
          rw [ih ('<' :: acc) rest (by simpa using Nat.lt_of_succ_lt_succ h)]
          simp
        | some ba =>
          obtain ⟨body, after⟩ := ba
          rw [show splitGo (fuel + 1) acc ('<' :: rest) =
              acc.reverse :: ('<' :: (body ++ ['>'])) :: splitGo fuel [] after
            by simp [splitGo, htb]]
          have hlt : after.length < fuel := by
            have h1 := tagBody_after_lt htb
            have h2 : rest.length < fuel := by
              simpa using Nat.lt_of_succ_lt_succ h
            omega
          simp only [joinl, ih [] after hlt, List.reverse_nil,
            List.nil_append]
          rw [tagBody_eq htb]
          simp
      · rw [show splitGo (fuel + 1) acc (c :: rest) =
            splitGo fuel (c :: acc) rest by simp [splitGo, hc]]
        rw [ih (c :: acc) rest (by simpa using Nat.lt_of_succ_lt_succ h)]
        simp

/-- Joining the tag split recovers the input. -/
theorem joinl_splitTags (s : List Char) : joinl (splitTags s) = s := by
  simpa using joinl_splitGo (s.length + 1) [] s (Nat.lt_succ_self _)

/-- Prepending text preserves an in-order interleaving. -/
theorem interleavesTags_prepend {ts : List (List Char)}
    {out : List Char} (pre : List Char) (h : interleavesTags ts out) :
    interleavesTags ts (pre ++ out) := by
  cases ts with
  | nil => trivial
  | cons t ts =>
    obtain ⟨u, rest, he, hrec⟩ := h
    exact ⟨pre ++ u, rest, by rw [he]; simp [List.append_assoc], hrec⟩

/-- Mapping a function over split parts that fixes every tag-shaped
part keeps the tag-shaped parts unchanged and in order in the join. -/
theorem interleavesTags_join (f : List Char → List Char) :
    ∀ parts : List (List Char), (∀ p, isTagTok p = true → f p = p) →
      interleavesTags (parts.filter isTagTok) (joinl (parts.map f)) := by
  intro parts hf
  induction parts with
  | nil => trivial
  | cons p ps ih =>
    by_cases hp : isTagTok p = true
    · rw [show (p :: ps).filter isTagTok = p :: ps.filter isTagTok by
        simp [List.filter, hp]]
      exact ⟨[], joinl (ps.map f), by simp [joinl, hf p hp], ih⟩
    · have hpf : isTagTok p = false := by
        cases hb : isTagTok p
        · rfl
        · exact absurd hb hp
      rw [show (p :: ps).filter isTagTok = ps.filter isTagTok by
        simp [List.filter, hpf]]
      exact interleavesTags_prepend (f p) ih

/-- Claim C6: `_bidi_visual_xml` leaves every tag-shaped split part
(each separator produced by splitting on `(<[^>]+>)`) unchanged and in
the same relative order in its output, reordering only the text
segments between tags; in particular, on
`"<lb/>אבג<supplied>x</supplied>"` the three tags occur unchanged and
in order in the output, for every reordering function. -/
theorem claim6 :
    (∀ (hasBidi : Bool) (g : List Char → List Char) (s : List Char),
      interleavesTags ((splitTags s).filter isTagTok)
        (bidi_visual_xml hasBidi g s)) ∧
    (∀ g : List Char → List Char,
      interleavesTags
        ["<lb/>".data, "<supplied>".data, "</supplied>".data]
        (bidi_visual_xml true g "<lb/>אבג<supplied>x</supplied>".data)) := by
  have main : ∀ (hasBidi : Bool) (g : List Char → List Char) (s : List Char),
      interleavesTags ((splitTags s).filter isTagTok)
        (bidi_visual_xml hasBidi g s) := by
    intro hasBidi g s
    by_cases hs : s = []
    · rw [show bidi_visual_xml hasBidi g s = s by simp [bidi_visual_xml, hs]]
      have : interleavesTags ((splitTags s).filter isTagTok)
          (joinl ((splitTags s).map id)) :=
        interleavesTags_join id (splitTags s) (fun _ _ => rfl)
      rwa [List.map_id, joinl_splitTags] at this
    · cases hasBidi with
      | false =>
        rw [show bidi_visual_xml false g s = s by simp [bidi_visual_xml, hs]]
        have : interleavesTags ((splitTags s).filter isTagTok)
            (joinl ((splitTags s).map id)) :=
          interleavesTags_join id (splitTags s) (fun _ _ => rfl)
        rwa [List.map_id, joinl_splitTags] at this
      | true =>
        rw [show bidi_visual_xml true g s =
            joinl ((splitTags s).map (fun p =>
              if p = [] then p
              else if isTagTok p then p
              else bidi_visual true g p)) by
          simp [bidi_visual_xml, hs]]
        refine interleavesTags_join _ (splitTags s) ?_
        intro p hp
        have hne : p ≠ [] := by
          intro he
          rw [he] at hp
          exact Bool.noConfusion hp
        simp [hne, hp]
  refine ⟨main, fun g => ?_⟩
  have h := main true g "<lb/>אבג<supplied>x</supplied>".data
  rwa [show (splitTags "<lb/>אבג<supplied>x</supplied>".data).filter isTagTok =
      ["<lb/>".data, "<supplied>".data, "</supplied>".data] by decide] at h

/-- Folding one more digit character onto a decimal value. -/
theorem ofDigitsChars_append (xs : List Char) (c : Char) :
    ofDigitsChars (xs ++ [c]) = ofDigitsChars xs * 10 + (c.toNat - 48) := by
  simp [ofDigitsChars, List.foldl_append]

/-- The decimal rendering round-trips through its value. -/
theorem ofDigitsChars_natDigitsGo : ∀ (fuel n : Nat), n ≤ fuel →
    ofDigitsChars (natDigitsGo fuel n) = n := by
  intro fuel
  induction fuel with
  | zero =>
    intro n h
    have : n = 0 := Nat.le_zero.mp h
    simp [natDigitsGo, ofDigitsChars, this]
  | succ fuel ih =>
    intro n h
    by_cases hn : n = 0
    · simp [natDigitsGo, ofDigitsChars, hn]
    · rw [show natDigitsGo (fuel + 1) n =
        natDigitsGo fuel (n / 10) ++ [digitToChar (n % 10)] by
          simp [natDigitsGo, hn]]
      rw [ofDigitsChars_append]
      have hdiv : n / 10 ≤ fuel := by
        have : n / 10 < n := Nat.div_lt_self (Nat.pos_of_ne_zero hn)
          (by norm_num)
        omega
      rw [ih _ hdiv]
      have hd : (digitToChar (n % 10)).toNat - 48 = n % 10 := by
        have hlt : n % 10 < 10 := Nat.mod_lt _ (by norm_num)
        revert hlt
        generalize n % 10 = d
        revert d
        decide
      rw [hd]
      omega

/-- The decimal rendering is injective. -/
theorem strNum_inj {k k2 : Nat} (h : strNum k = strNum k2) : k = k2 := by
  have h1 := ofDigitsChars_natDigitsGo k k le_rfl
  have h2 := ofDigitsChars_natDigitsGo k2 k2 le_rfl
  unfold strNum at h
  rw [← h1, ← h2, h]

/-- Collision names with the same base and extension but different
counters are different. -/
theorem collisionName_inj {base ext : List Char} {k k2 : Nat}
    (h : collisionName base ext k = collisionName base ext k2) : k = k2 := by
  unfold collisionName at h
  have h1 := List.append_cancel_left h
  simp only [List.cons.injEq, true_and] at h1
  exact strNum_inj (List.append_cancel_right h1)

/-- Counting with a strictly weaker predicate that misses some list
element counts strictly fewer elements. -/
theorem countP_lt_of_mem {α : Type} (p q : α → Bool) :
    ∀ (l : List α) (c : α), c ∈ l → q c = true → p c = false →
      (∀ x, p x = true → q x = true) → l.countP p < l.countP q := by
  intro l
  induction l with
  | nil =>
    intro c hc
    simp at hc
  | cons x xs ih =>
    intro c hc hq hp hmono
    have hmle : xs.countP p ≤ xs.countP q :=
      List.countP_mono_left (fun y _ hy => hmono y hy)
    rw [List.countP_cons, List.countP_cons]
    rcases List.mem_cons.mp hc with he | hm
    · subst he
      rw [hp, hq]
      simp
      omega
    · have hlt := ih c hm hq hp hmono
      by_cases hx : p x = true
      · rw [hx, hmono x hx]
        omega
      · have hxf : p x = false := by
          cases hb : p x
          · rfl
          · exact absurd hb hx
        rw [hxf]
        by_cases hqx : q x = true
        · rw [hqx]
          simp
          omega
        · have hqf : q x = false := by
            cases hb : q x
            · rfl
            · exact absurd hb hqx
          rw [hqf]
          simp
          omega

/-- The collision loop returns a name that is not in `used`, provided
its fuel exceeds the number of `used` entries that are collision names
in its candidate range (pigeonhole: the candidates are distinct). -/
theorem findFree_not_mem (base ext : List Char) (used : List (List Char)) :
    ∀ (fuel k : Nat),
      used.countP (fun u =>
        decide (∃ j, j < fuel ∧ u = collisionName base ext (k + j))) < fuel →
      findFree base ext used fuel k ∉ used := by
  intro fuel
  induction fuel with
  | zero =>
    intro k h
    exact absurd h (Nat.not_lt_zero _)
  | succ fuel ih =>
    intro k h
    by_cases hc : collisionName base ext k ∈ used
    · rw [show findFree base ext used (fuel + 1) k =
        findFree base ext used fuel (k + 1) by simp [findFree, hc]]
      apply ih
      have hlt : used.countP (fun u =>
          decide (∃ j, j < fuel ∧ u = collisionName base ext (k + 1 + j))) <
          used.countP (fun u =>
          decide (∃ j, j < fuel + 1 ∧ u = collisionName base ext (k + j))) := by
        apply countP_lt_of_mem _ _ used (collisionName base ext k) hc
        · simp only [decide_eq_true_eq]
          exact ⟨0, by omega, by simp⟩
        · simp only [decide_eq_false_iff_not]
          rintro ⟨j, hj, he⟩
          have := collisionName_inj he.symm
          omega
        · intro x hx
          simp only [decide_eq_true_eq] at hx ⊢
          obtain ⟨j, hj, he⟩ := hx
          refine ⟨j + 1, by omega, ?_⟩
          rw [he, show k + 1 + j = k + (j + 1) by omega]
      omega
    · rw [show findFree base ext used (fuel + 1) k =
        collisionName base ext k by simp [findFree, hc]]
      exact hc

/-- The collision loop always returns a collision name with counter at
least its starting counter. -/
theorem findFree_shape (base ext : List Char) (used : List (List Char)) :
    ∀ (fuel k : Nat), ∃ j, k ≤ j ∧
      findFree base ext used fuel k = collisionName base ext j := by
  intro fuel
  induction fuel with
  | zero =>
    intro k
    exact ⟨k, le_rfl, rfl⟩
  | succ fuel ih =>
    intro k
    by_cases hc : collisionName base ext k ∈ used
    · obtain ⟨j, hj, he⟩ := ih (k + 1)
      exact ⟨j, by omega, by simp [findFree, hc, he]⟩
    · exact ⟨k, le_rfl, by simp [findFree, hc]⟩

/-- The name chosen for one file is never one already used. -/
theorem resolveName_not_mem (d : List Char) (used : List (List Char)) :
    resolveName d used ∉ used := by
  by_cases hd : d ∈ used
  · rw [show resolveName d used = findFree (splitext d).1 (splitext d).2 used
      (used.length + 1) 1 by simp [resolveName, hd]]
    apply findFree_not_mem
    have := List.countP_le_length (fun u =>
      decide (∃ j, j < used.length + 1 ∧
        u = collisionName (splitext d).1 (splitext d).2 (1 + j)))
      (l := used)
    omega
  · rw [show resolveName d used = d by simp [resolveName, hd]]
    exact hd

/-- The name chosen for one file is the default name or a suffixed
variant of it with a positive counter. -/
theorem resolveName_shape (d : List Char) (used : List (List Char)) :
    resolveName d used = d ∨ ∃ k, 1 ≤ k ∧
      resolveName d used = collisionName (splitext d).1 (splitext d).2 k := by
  by_cases hd : d ∈ used
  · right
    obtain ⟨j, hj, he⟩ :=
      findFree_shape (splitext d).1 (splitext d).2 used (used.length + 1) 1
    exact ⟨j, hj, by rw [show resolveName d used =
      findFree (splitext d).1 (splitext d).2 used (used.length + 1) 1 by
        simp [resolveName, hd], he]⟩
  · left
    simp [resolveName, hd]

/-- The batch-save loop writes pairwise distinct names, all fresh with
respect to the incoming used set. -/
theorem saveGo_nodup : ∀ (items : List FileOut) (tab : Nat)
    (used : List (List Char)),
    ((saveGo items tab used).map Prod.fst).Nodup ∧
      ∀ nm ∈ (saveGo items tab used).map Prod.fst, nm ∉ used := by
  intro items
  induction items with
  | nil =>
    intro tab used
    exact ⟨List.nodup_nil, by simp [saveGo]⟩
  | cons it rest ih =>
    intro tab used
    by_cases hskip : pyStrip (get_output_info_for_tab it tab).1 = []
    · rw [show saveGo (it :: rest) tab used = saveGo rest tab used by
        simp [saveGo, hskip]]
      exact ih tab used
    · rw [show saveGo (it :: rest) tab used =
        (resolveName (get_output_info_for_tab it tab).2.1 used,
          (get_output_info_for_tab it tab).1) ::
          saveGo rest tab
            (resolveName (get_output_info_for_tab it tab).2.1 used :: used) by
        simp [saveGo, hskip]]
      obtain ⟨hnd, hfresh⟩ := ih tab
        (resolveName (get_output_info_for_tab it tab).2.1 used :: used)
      refine ⟨?_, ?_⟩
      · rw [List.map_cons]
        refine List.nodup_cons.mpr ⟨?_, hnd⟩
        intro hmem
        exact hfresh _ hmem (List.mem_cons_self _ _)
      · rw [List.map_cons]
        intro nm hnm
        rcases List.mem_cons.mp hnm with he | hm
        · subst he
          exact resolveName_not_mem _ _
        · intro hmem
          exact hfresh nm hm (List.mem_cons_of_mem _ hmem)

/-- Every name written by the batch-save loop comes from one of its
items: the item's default name, possibly with a positive collision
counter inserted before the extension. -/
theorem saveGo_shape : ∀ (items : List FileOut) (tab : Nat)
    (used : List (List Char)) (pr : List Char × List Char),
    pr ∈ saveGo items tab used → ∃ it, it ∈ items ∧
      (pr.1 = (get_output_info_for_tab it tab).2.1 ∨
        ∃ k, 1 ≤ k ∧ pr.1 =
          collisionName (splitext (get_output_info_for_tab it tab).2.1).1
            (splitext (get_output_info_for_tab it tab).2.1).2 k) := by
  intro items
  induction items with
  | nil =>
    intro tab used pr h
    simp [saveGo] at h
  | cons it rest ih =>
    intro tab used pr h
    by_cases hskip : pyStrip (get_output_info_for_tab it tab).1 = []
    · rw [show saveGo (it :: rest) tab used = saveGo rest tab used by
        simp [saveGo, hskip]] at h
      obtain ⟨it2, hmem, hsh⟩ := ih tab used pr h
      exact ⟨it2, List.mem_cons_of_mem _ hmem, hsh⟩
    · rw [show saveGo (it :: rest) tab used =
        (resolveName (get_output_info_for_tab it tab).2.1 used,
          (get_output_info_for_tab it tab).1) ::
          saveGo rest tab
            (resolveName (get_output_info_for_tab it tab).2.1 used :: used) by
        simp [saveGo, hskip]] at h
      rcases List.mem_cons.mp h with he | hm
      · refine ⟨it, List.mem_cons_self _ _, ?_⟩
        rw [he]
        exact resolveName_shape _ _
      · obtain ⟨it2, hmem, hsh⟩ := ih tab _ pr hm
        exact ⟨it2, List.mem_cons_of_mem _ hmem, hsh⟩

/-- Claim C9: in a batch save on an output tab, the default names are
`{basename}_{kind}.{ext}` for the selected kind, every written file
carries its item's default name or that name with a positive numeric
suffix inserted before the extension, and no two files written in one
batch share a name. -/
theorem claim9 (tab : Nat) (items : List FileOut)
    (h1 : 1 ≤ tab) (h4 : tab ≤ 4) :
    ((save_multiple_files items tab).map Prod.fst).Nodup ∧
    (∀ pr ∈ save_multiple_files items tab, ∃ it, it ∈ items ∧
      (pr.1 = (get_output_info_for_tab it tab).2.1 ∨
        ∃ k, 1 ≤ k ∧ pr.1 =
          (splitext (get_output_info_for_tab it tab).2.1).1 ++
            '_' :: (strNum k ++
              (splitext (get_output_info_for_tab it tab).2.1).2))) ∧
    (∀ it : FileOut,
      (get_output_info_for_tab it 1).2.1 =
        (splitext it.file_name).1 ++ "_epidoc.xml".data ∧
      (get_output_info_for_tab it 2).2.1 =
        (splitext it.file_name).1 ++ "_notes.txt".data ∧
      (get_output_info_for_tab it 3).2.1 =
        (splitext it.file_name).1 ++ "_analysis.txt".data ∧
      (get_output_info_for_tab it 4).2.1 =
        (splitext it.file_name).1 ++ "_full.txt".data) := by
  refine ⟨(saveGo_nodup items tab []).1, ?_, ?_⟩
  · intro pr hpr
    obtain ⟨it, hmem, hsh⟩ := saveGo_shape items tab [] pr hpr
    exact ⟨it, hmem, hsh⟩
  · intro it
    refine ⟨rfl, rfl, rfl, rfl⟩

/-- Witness for C9 on a concrete batch: three identical input file
names on the EpiDoc tab produce distinct auto-names, and the names are
`a_epidoc.xml`, `a_epidoc_1.xml`, `a_epidoc_2.xml`. -/
theorem claim9_witness :
    (((save_multiple_files
      [⟨"a.txt".data, "in".data,
        ⟨"f".data, true, some "x".data, some "n".data, some "t".data, none⟩⟩,
       ⟨"a.txt".data, "in".data,
        ⟨"f".data, true, some "x".data, some "n".data, some "t".data, none⟩⟩,
       ⟨"a.txt".data, "in".data,
        ⟨"f".data, true, some "x".data, some "n".data, some "t".data, none⟩⟩]
      1).map Prod.fst).Nodup) ∧
    (save_multiple_files
      [⟨"a.txt".data, "in".data,
        ⟨"f".data, true, some "x".data, some "n".data, some "t".data, none⟩⟩,
       ⟨"a.txt".data, "in".data,
        ⟨"f".data, true, some "x".data, some "n".data, some "t".data, none⟩⟩,
       ⟨"a.txt".data, "in".data,
        ⟨"f".data, true, some "x".data, some "n".data, some "t".data, none⟩⟩]
      1).map Prod.fst =
      ["a_epidoc.xml".data, "a_epidoc_1.xml".data, "a_epidoc_2.xml".data] :=
  ⟨(claim9 1 _ (by decide) (by decide)).1, by decide⟩

end LeidenEpiDoc
